import Mathlib

/-!
Shallow embedding of the rbaserun launcher (src/main.rs): the descriptor
classifier `parse_base_path` with its four form parsers, the launch-argument
construction of `launch_base`, and the history-store operations
`add_to_history` / `load_history` / `dump_history`, together with proofs of
the specification claims about them.

Machine strings are modelled as Lean `String` / `List Char`.  Rust's
`str::to_lowercase` and `str::trim` operate on Unicode; the model uses their
ASCII restrictions (`Char.toLower`, ASCII whitespace), which agree with the
Rust functions on all ASCII input.
-/

/-- The three descriptor kinds produced by classification
(Rust `enum PathKind` in src/main.rs). -/
inductive PathKind where
  | Server (host : String) (ref_name : String)
  | File (path : String)
  | Web (url : String)
deriving DecidableEq

/-- Rust `str::trim`: drop whitespace from both ends (ASCII model). -/
def rustTrim (s : List Char) : List Char :=
  ((s.dropWhile Char.isWhitespace).reverse.dropWhile Char.isWhitespace).reverse

/-- Does `pat` occur at the start of `s`?  Helper for `rustContains`. -/
def startsWithSub : List Char → List Char → Bool
  | _, [] => true
  | [], _ :: _ => false
  | a :: s, b :: p => a == b && startsWithSub s p

/-- Rust `str::contains` for a literal pattern: `pat` occurs somewhere in `s`. -/
def rustContains : List Char → List Char → Bool
  | [], pat => startsWithSub [] pat
  | a :: rest, pat => startsWithSub (a :: rest) pat || rustContains rest pat

/-- Pattern atoms of the tiny regex engine.  The three regexes in src/main.rs
(`"(.+)"`, `"(.+)".+"(.+)"`, `(.+);(.+)`) use only literal characters,
`.+`, and the capturing `(.+)`. -/
inductive RE where
  | lit (c : Char)
  | dotPlus
  | grpPlus
deriving DecidableEq

/-- Greedy length choice: try to consume `n` characters for
`n = m, m-1, …, 1` (longest first) and return the first success of `k`. -/
def descend (m : Nat) (k : Nat → Option (List (List Char))) :
    Option (List (List Char)) :=
  match m with
  | 0 => none
  | n + 1 =>
    match k (n + 1) with
    | some r => some r
    | none => descend n k

/-- Backtracking matcher: match pattern `ps` against a prefix of `s`, then run
continuation `k` on the remainder; returns the capture-group texts in group
order.  `.+` consumes only non-newline characters, longest first, mirroring
the leftmost-first greedy semantics of the Rust `regex` crate on these
patterns. -/
def matchSeq : List RE → List Char → (List Char → Option (List (List Char))) →
    Option (List (List Char))
  | [], s, k => k s
  | .lit _ :: _, [], _ => none
  | .lit c :: ps, a :: rest, k => if a = c then matchSeq ps rest k else none
  | .dotPlus :: ps, s, k =>
    descend (s.takeWhile (fun c => !(c == '\n'))).length
      (fun n => matchSeq ps (s.drop n) k)
  | .grpPlus :: ps, s, k =>
    descend (s.takeWhile (fun c => !(c == '\n'))).length
      (fun n => (matchSeq ps (s.drop n) k).map (fun caps => s.take n :: caps))

/-- `Regex::captures`: find the leftmost match of `ps` in `s` and return its
capture groups (group 0, the whole match, is not recorded; Rust's group `i`
is index `i - 1` here). -/
def reFind (ps : List RE) : List Char → Option (List (List Char))
  | [] => matchSeq ps [] (fun _ => some [])
  | a :: rest =>
    match matchSeq ps (a :: rest) (fun _ => some []) with
    | some caps => some caps
    | none => reFind ps rest

/-- The regex `"(.+)"` (File and Web forms). -/
def patQuoted : List RE := [.lit '"', .grpPlus, .lit '"']

/-- The regex `"(.+)".+"(.+)"` (Server/Ref form). -/
def patServer : List RE :=
  [.lit '"', .grpPlus, .lit '"', .dotPlus, .lit '"', .grpPlus, .lit '"']

/-- The regex `(.+);(.+)` (Simple form). -/
def patSimple : List RE := [.grpPlus, .lit ';', .grpPlus]

/-- Number of capture groups in a pattern. -/
def grpCount : List RE → Nat
  | [] => 0
  | .grpPlus :: ps => grpCount ps + 1
  | .lit _ :: ps => grpCount ps
  | .dotPlus :: ps => grpCount ps

/-- `parse_base_simple_form` from src/main.rs. -/
def parse_base_simple_form (input : List Char) : Except String PathKind :=
  match reFind patSimple input with
  | none => Except.error "expected pattern: host;ref"
  | some caps =>
    Except.ok
      (PathKind.Server (String.mk (caps.getD 0 [])) (String.mk (caps.getD 1 [])))

/-- `parse_base_server_form` from src/main.rs. -/
def parse_base_server_form (input : List Char) : Except String PathKind :=
  match reFind patServer input with
  | none => Except.error "expected pattern: Srvr=\"host\";Ref=\"ref\";"
  | some caps =>
    Except.ok
      (PathKind.Server (String.mk (caps.getD 0 [])) (String.mk (caps.getD 1 [])))

/-- `parse_base_file_form` from src/main.rs. -/
def parse_base_file_form (input : List Char) : Except String PathKind :=
  match reFind patQuoted input with
  | none => Except.error "expected pattern: File=\"<path>\";"
  | some caps => Except.ok (PathKind.File (String.mk (caps.getD 0 [])))

/-- `parse_base_web_form` from src/main.rs. -/
def parse_base_web_form (input : List Char) : Except String PathKind :=
  match reFind patQuoted input with
  | none => Except.error "expected pattern: ws=\"<url>\";"
  | some caps => Except.ok (PathKind.Web (String.mk (caps.getD 0 [])))

/-- The marker substring `ws=`. -/
def wsMarker : List Char := ['w', 's', '=']

/-- The marker substring `file=`. -/
def fileMarker : List Char := ['f', 'i', 'l', 'e', '=']

/-- The marker substring `srvr=`. -/
def srvrMarker : List Char := ['s', 'r', 'v', 'r', '=']

/-- The marker substring `ref=`. -/
def refMarker : List Char := ['r', 'e', 'f', '=']

/-- `parse_base_path` from src/main.rs: trim; if the trimmed string contains
`ws=` (checked before lower-casing), try the Web form on it as-is; otherwise
lower-case it and try, in order, the File form (`file=`), the Server/Ref form
(`srvr=` and `ref=`), the Simple form (`;`), else fail carrying the original
raw text. -/
def parse_base_path (input_path : String) : Except String PathKind :=
  let s := rustTrim input_path.data
  if rustContains s wsMarker then
    parse_base_web_form s
  else
    let s := s.map Char.toLower
    if rustContains s fileMarker then
      parse_base_file_form s
    else if rustContains s srvrMarker && rustContains s refMarker then
      parse_base_server_form s
    else if rustContains s [';'] then
      parse_base_simple_form s
    else
      Except.error ("Could not parse provided path: " ++ input_path)

deriving instance DecidableEq for Except

/-- The trimmed input: the value of `s` after `let s = input_path.trim()` in
`parse_base_path`. -/
def trimmedInput (s : String) : List Char :=
  rustTrim s.data

/-- The lower-cased trimmed input: the value of `s` after
`let s = s.to_lowercase()` in `parse_base_path`. -/
def loweredInput (s : String) : List Char :=
  (rustTrim s.data).map Char.toLower

/-- The argument-construction core of `launch_base` from src/main.rs: the
three command-line tokens handed to the starter executable (mode token, form
flag, composed argument).  Locating and spawning the starter is external IO,
modelled in `launch_base`. -/
def launchArgs (path : PathKind) (designer : Bool) : List String :=
  let launch_mode := if designer then "DESIGNER" else "ENTERPRISE"
  match path with
  | .Server host ref_name => [launch_mode, "/S", host ++ "\\" ++ ref_name]
  | .File p => [launch_mode, "/F", p]
  | .Web url => [launch_mode, "/WS", url]

/-- The environment visible to the program: the content of
`./rbaserun_history.txt` (`none` = absent or unreadable), whether the starter
executable exists, whether process creation succeeds (and with which OS error
text otherwise), and the log of spawned commands. -/
structure World where
  historyFile : Option (List Char)
  starterOk : Bool
  spawnOk : Bool
  spawnErrMsg : String
  spawned : List (List String)
deriving DecidableEq

/-- `launch_base` from src/main.rs as a state transformer over `World`: error
if the starter executable is missing, otherwise spawn it with `launchArgs`
(`spawn()` errors propagate via `?`). -/
def launch_base (path : PathKind) (designer : Bool) (w : World) :
    Except String Unit × World :=
  if !w.starterOk then
    (Except.error
      "Could not locate 1C starter app: 'c:\\Program Files\\1cv8\\common\\1cestart.exe'",
      w)
  else if w.spawnOk then
    (Except.ok (), { w with spawned := w.spawned ++ [launchArgs path designer] })
  else
    (Except.error w.spawnErrMsg, w)

/-- `try_parse_and_launch` from src/main.rs: classify, then dispatch,
prefixing failures with `Parsing error:` / `Launcher error:`. -/
def try_parse_and_launch (path : String) (designer : Bool) (w : World) :
    Except String Unit × World :=
  match parse_base_path path with
  | Except.error e => (Except.error ("Parsing error: " ++ e), w)
  | Except.ok parsed_path =>
    match launch_base parsed_path designer w with
    | (Except.error e, w') => (Except.error ("Launcher error: " ++ e), w')
    | (Except.ok (), w') => (Except.ok (), w')

/-- The non-interactive branch of `main` from src/main.rs (taken when a
positional descriptor argument is supplied): it only calls
`try_parse_and_launch`. -/
def main_with_path (path : String) (designer : Bool) (w : World) :
    Except String Unit × World :=
  try_parse_and_launch path designer w

/-- The in-memory part of `App::add_to_history` from src/main.rs: a brand-new
entry is pushed at the end; an existing entry is removed at the index of its
first occurrence and reinserted at index 0.  (The `dump_history` call that
follows in the source is modelled separately.)  The two `none` fallbacks are
unreachable: `position` finds an index whenever `contains` holds, and that
index is in bounds. -/
def add_to_history (history : List String) (path : String) : List String :=
  if !(history.contains path) then
    history ++ [path]
  else
    match history.findIdx? (fun x => x == path) with
    | some index =>
      match history[index]? with
      | some removed_value => removed_value :: history.eraseIdx index
      | none => history
    | none => history

/-- Strip one trailing carriage return (Rust `BufRead::lines` does this to a
line that was terminated by `\n`). -/
def stripCr (l : List Char) : List Char :=
  if l.getLast? = some '\r' then l.dropLast else l

/-- Rust `BufRead::lines` over full file content: split at `\n`, dropping the
`\n` and one `\r` directly before it; a final fragment not terminated by `\n`
is yielded as-is (no `\r` stripping); nothing more is yielded at end of
input.  `cur` holds the current line so far, in reverse. -/
def linesAux (cur : List Char) : List Char → List (List Char)
  | [] => if cur = [] then [] else [cur.reverse]
  | c :: rest =>
    if c = '\n' then stripCr cur.reverse :: linesAux [] rest
    else linesAux (c :: cur) rest

/-- `read_lines` from src/main.rs composed with the `lines` iterator. -/
def rustLines (content : List Char) : List (List Char) :=
  linesAux [] content

/-- `App::load_history` from src/main.rs: if the history file is readable,
push each of its lines onto the current history; a missing or unreadable file
leaves the history unchanged. -/
def load_history (history : List String) (fileContent : Option (List Char)) :
    List String :=
  match fileContent with
  | none => history
  | some content => history ++ (rustLines content).map String.mk

/-- The `writeln!` loop of `App::dump_history`: `writeOk i` tells whether the
write of line `i` succeeds; a failing write propagates via `?`.  Returns the
result together with the bytes actually written. -/
def dump_writes (writeOk : Nat → Bool) : Nat → List String →
    Except Unit Unit × List Char
  | _, [] => (Except.ok (), [])
  | i, line :: rest =>
    if writeOk i then
      let r := dump_writes writeOk (i + 1) rest
      (r.1, (line.data ++ ['\n']) ++ r.2)
    else (Except.error (), [])

/-- `App::dump_history` from src/main.rs with explicit IO outcomes: `createOk`
tells whether `File::create` succeeds — its failure is silently ignored by
the `if let Ok` — and `writeOk` drives the `writeln!` loop.  Returns the
result and the history-file content after the call (`File::create`
truncates; a failed create leaves the old file in place). -/
def dump_history (history : List String) (createOk : Bool)
    (writeOk : Nat → Bool) (oldFile : Option (List Char)) :
    Except Unit Unit × Option (List Char) :=
  if createOk then
    let r := dump_writes writeOk 0 history
    (r.1, some r.2)
  else (Except.ok (), oldFile)

example : parse_base_path "SomeHost;SomeRef" =
    Except.ok (PathKind.Server "somehost" "someref") := rfl

example : parse_base_path "Srvr=\"h\";Ref=\"r\";" =
    Except.ok (PathKind.Server "h" "r") := rfl

example : parse_base_path "File=\"C:\\base.1cd\"" =
    Except.ok (PathKind.File "c:\\base.1cd") := rfl

example : parse_base_path "ws=\"http://Host/Base\"" =
    Except.ok (PathKind.Web "http://Host/Base") := rfl

example : parse_base_path "garbage" =
    Except.error "Could not parse provided path: garbage" := rfl

example : parse_base_path "  a;b;  " =
    Except.ok (PathKind.Server "a" "b;") := rfl

example : parse_base_path "\"a\";ws=\"b\"" =
    Except.ok (PathKind.Web "a\";ws=\"b") := rfl

/-! ### Character-level facts about lower-casing -/

/-- `Char.toLower` is idempotent: a lower-cased character is left fixed. -/
theorem toLower_toLower (c : Char) :
    Char.toLower (Char.toLower c) = Char.toLower c := by
  unfold Char.toLower
  by_cases h : c.toNat ≥ 65 ∧ c.toNat ≤ 90
  · have hv : Nat.isValidChar (c.toNat + 32) := Or.inl (by omega)
    have ht : (Char.ofNat (c.toNat + 32)).toNat = c.toNat + 32 := by
      unfold Char.ofNat
      rw [dif_pos hv]
      rfl
    rw [if_pos h, if_neg (by rw [ht]; omega :
      ¬((Char.ofNat (c.toNat + 32)).toNat ≥ 65 ∧
        (Char.ofNat (c.toNat + 32)).toNat ≤ 90))]
  · rw [if_neg h, if_neg h]

/-- A list of characters on which a map acts pointwise as the identity is
fixed by that map. -/
theorem map_fix {f : Char → Char} :
    ∀ {l : List Char}, (∀ c ∈ l, f c = c) → l.map f = l
  | [], _ => rfl
  | c :: l, h => by
    rw [List.map_cons, h c (by simp), map_fix (fun d hd => h d (by simp [hd]))]

/-! ### History-store lemmas -/

/-- A brand-new entry is appended at the end. -/
theorem add_to_history_of_not_mem {h : List String} {e : String} (he : e ∉ h) :
    add_to_history h e = h ++ [e] := by
  have hc : h.contains e = false := by
    cases hh : h.contains e
    · rfl
    · exact absurd (List.mem_of_elem_eq_true hh) he
  unfold add_to_history
  rw [hc]
  rfl

/-- `position` (modelled by `findIdx?`) finds the first occurrence. -/
theorem findIdx_first_aux (e : String) :
    ∀ (l r : List String) (i : Nat), e ∉ l →
      List.findIdx? (fun x => x == e) (l ++ e :: r) i = some (l.length + i)
  | [], r, i, _ => by simp [List.findIdx?_cons]
  | a :: l, r, i, hnot => by
    have ha : (a == e) = false := by
      simp only [beq_eq_false_iff_ne, ne_eq]
      intro hae
      exact hnot (by simp [hae])
    rw [List.cons_append, List.findIdx?_cons, ha]
    simp only [if_false, Bool.false_eq_true]
    rw [findIdx_first_aux e l r (i + 1) (fun hm => hnot (List.mem_cons_of_mem _ hm))]
    congr 1
    simp
    omega

/-- Reading the element at the index of the split point. -/
theorem getElem_append_mid (e : String) :
    ∀ (l r : List String), (l ++ e :: r)[l.length]? = some e
  | [], _ => by simp
  | a :: l, r => by
    rw [List.cons_append]
    simpa using getElem_append_mid e l r

/-- `Vec::remove` at the split point drops exactly the split element. -/
theorem eraseIdx_append_mid (e : String) :
    ∀ (l r : List String), (l ++ e :: r).eraseIdx l.length = l ++ r
  | [], _ => rfl
  | a :: l, r => by
    rw [List.cons_append]
    simpa using eraseIdx_append_mid e l r

/-- An entry present in the history is moved from its first occurrence to the
front, keeping every other entry in relative order. -/
theorem add_to_history_of_split {e : String} (l r : List String) (hnl : e ∉ l) :
    add_to_history (l ++ e :: r) e = e :: (l ++ r) := by
  have hmem : e ∈ l ++ e :: r := by simp
  have hc : (l ++ e :: r).contains e = true := List.elem_eq_true_of_mem hmem
  unfold add_to_history
  rw [hc]
  simp only [Bool.not_true, Bool.false_eq_true, if_false]
  have hf := findIdx_first_aux e l r 0 hnl
  rw [Nat.add_zero] at hf
  simp only [hf, getElem_append_mid e l r, eraseIdx_append_mid e l r]

/-- Every member of a list splits it at its first occurrence. -/
theorem first_occurrence {e : String} :
    ∀ {h : List String}, e ∈ h → ∃ l r, h = l ++ e :: r ∧ e ∉ l := by
  intro h hm
  induction h with
  | nil => cases hm
  | cons a t ih =>
    by_cases hae : a = e
    · exact ⟨[], t, by rw [hae]; rfl, by simp⟩
    · have ht : e ∈ t := by
        cases List.mem_cons.1 hm with
        | inl hh => exact absurd hh.symm hae
        | inr hh => exact hh
      obtain ⟨l, r, hdec, hnl⟩ := ih ht
      exact ⟨a :: l, r, by rw [List.cons_append, hdec], by
        simp only [List.mem_cons, not_or]
        exact ⟨fun hh => hae hh.symm, hnl⟩⟩

/-- Recording an entry that already sits at index 0 changes nothing. -/
theorem add_to_history_cons_self (e : String) (t : List String) :
    add_to_history (e :: t) e = e :: t := by
  have := add_to_history_of_split ([] : List String) t (e := e) (by simp)
  simpa using this

/-- `add_to_history` preserves freedom from duplicates. -/
theorem add_to_history_nodup_aux {h : List String} {e : String}
    (hn : h.Nodup) : (add_to_history h e).Nodup := by
  by_cases he : e ∈ h
  · obtain ⟨l, r, hdec, hnl⟩ := first_occurrence he
    subst hdec
    rw [add_to_history_of_split l r hnl]
    simp only [List.nodup_cons, List.nodup_append, List.disjoint_cons_right,
      List.mem_cons, List.mem_append, not_or] at hn ⊢
    obtain ⟨h1, ⟨h2a, h2b⟩, h3a, h3b⟩ := hn
    exact ⟨⟨hnl, h2a⟩, h1, h2b, h3b⟩
  · rw [add_to_history_of_not_mem he]
    simp only [List.nodup_append, List.nodup_cons, List.nodup_nil,
      List.disjoint_singleton]
    exact ⟨hn, by simp, he⟩

/-! ### Claim C3 -/

/-- C3: `record_use` (`App::add_to_history`) appends an absent entry at the
end (yielding `h ++ [e]`, of length `h.length + 1` with `e` last); it removes
a present entry at its first occurrence and reinserts it at index 0,
preserving the relative order of all other entries; and an entry already at
index 0 leaves the history unchanged. -/
theorem add_to_history_spec (h : List String) (e : String) :
    (e ∉ h → add_to_history h e = h ++ [e]) ∧
    (e ∈ h → ∃ l r, h = l ++ e :: r ∧ e ∉ l ∧
      add_to_history h e = e :: (l ++ r)) ∧
    (∀ t, h = e :: t → add_to_history h e = h) := by
  refine ⟨fun he => add_to_history_of_not_mem he, fun he => ?_, fun t ht => ?_⟩
  · obtain ⟨l, r, hdec, hnl⟩ := first_occurrence he
    exact ⟨l, r, hdec, hnl, by rw [hdec, add_to_history_of_split l r hnl]⟩
  · rw [ht, add_to_history_cons_self]

/-- Witness for C3 at a concrete input. -/
theorem add_to_history_spec_witness :
    add_to_history ["a"] "b" = ["a", "b"] :=
  (add_to_history_spec ["a"] "b").1 (by decide)

/-! ### Claim C4 -/

/-- C4 as stated is false: recording a brand-new entry appends it at the end,
and recording it again moves it to the front, so the two sequences differ
already for `h = ["a"]`, `e = "b"`. -/
theorem record_use_not_idempotent :
    add_to_history (add_to_history ["a"] "b") "b" ≠ add_to_history ["a"] "b" := by
  decide

/-- C4 (amended): `record_use` applied twice in a row agrees with one
application whenever the entry already occurs in the history (after one
application the entry heads the list, and re-recording the head is the
identity). -/
theorem record_use_idem_of_mem (h : List String) (e : String) (he : e ∈ h) :
    add_to_history (add_to_history h e) e = add_to_history h e := by
  obtain ⟨l, r, hdec, hnl⟩ := first_occurrence he
  rw [hdec, add_to_history_of_split l r hnl, add_to_history_cons_self]

/-- Witness for the amended C4 at a concrete input. -/
theorem record_use_idem_of_mem_witness :
    add_to_history (add_to_history ["a", "b"] "b") "b" =
      add_to_history ["a", "b"] "b" :=
  record_use_idem_of_mem ["a", "b"] "b" (by decide)

/-! ### Claim C8 -/

/-- C8 as stated is false: `load_history` performs no deduplication, so
loading a persisted file whose lines repeat (here `"a\na\n"`) yields a
history with a duplicate string. -/
theorem load_history_duplicates :
    load_history [] (some "a\na\n".data) = ["a", "a"] ∧
      ¬ (load_history [] (some "a\na\n".data)).Nodup := by
  exact ⟨rfl, by decide⟩

/-- C8 (amended): `record_use` preserves the no-duplicate invariant — from a
duplicate-free history it always produces a duplicate-free history — but
`load_history` preserves file order without deduplicating, so the invariant
holds after a load only if the persisted file itself has no repeated lines. -/
theorem record_use_preserves_nodup (h : List String) (e : String)
    (hn : h.Nodup) : (add_to_history h e).Nodup :=
  add_to_history_nodup_aux hn

/-- Witness for the amended C8 at a concrete input. -/
theorem record_use_preserves_nodup_witness :
    (add_to_history ["a", "b"] "b").Nodup :=
  record_use_preserves_nodup ["a", "b"] "b" (by decide)

/-! ### Claim C6 -/

/-- C6: `launch_base` maps `Server{host, ref_name}` to flag `/S` with argument
`host\ref_name`, `File{path}` to `/F` with `path`, and `Web{url}` to `/WS`
with `url`; flipping `designer` changes only the leading mode token
(`DESIGNER` / `ENTERPRISE`), never the flag or the argument. -/
theorem launchArgs_spec :
    (∀ (host ref_name : String) (d : Bool),
      launchArgs (PathKind.Server host ref_name) d =
        [(if d then "DESIGNER" else "ENTERPRISE"), "/S",
          host ++ "\\" ++ ref_name]) ∧
    (∀ (path : String) (d : Bool),
      launchArgs (PathKind.File path) d =
        [(if d then "DESIGNER" else "ENTERPRISE"), "/F", path]) ∧
    (∀ (url : String) (d : Bool),
      launchArgs (PathKind.Web url) d =
        [(if d then "DESIGNER" else "ENTERPRISE"), "/WS", url]) ∧
    (∀ k : PathKind,
      (launchArgs k true).drop 1 = (launchArgs k false).drop 1 ∧
      (launchArgs k true).take 1 = ["DESIGNER"] ∧
      (launchArgs k false).take 1 = ["ENTERPRISE"]) := by
  refine ⟨fun _ _ _ => rfl, fun _ _ => rfl, fun _ _ => rfl, fun k => ?_⟩
  cases k <;> exact ⟨rfl, rfl, rfl⟩

/-! ### Claim C10 -/

/-- C10: the non-interactive mode (a positional descriptor argument was
supplied) never touches the persisted history: whatever `try_parse_and_launch`
does — parse failure, missing starter, spawn failure or success — the
history file is left exactly as it was, and no other part of the
non-interactive path reads or writes it (no `App` value, and hence no
in-memory history, exists on this path). -/
theorem main_with_path_preserves_history (path : String) (designer : Bool)
    (w : World) :
    ((main_with_path path designer w).2).historyFile = w.historyFile := by
  unfold main_with_path try_parse_and_launch
  cases hp : parse_base_path path with
  | error e => rfl
  | ok pk =>
    unfold launch_base
    by_cases hs : w.starterOk <;> by_cases hw : w.spawnOk <;>
      simp [hs, hw]

/-! ### Regex-engine lemmas -/

/-- A successful `descend` comes from one consumed length between 1 and `m`. -/
theorem descend_some {m : Nat} {k : Nat → Option (List (List Char))}
    {r : List (List Char)} (h : descend m k = some r) :
    ∃ n, 1 ≤ n ∧ n ≤ m ∧ k n = some r := by
  induction m with
  | zero => exact absurd h (by simp [descend])
  | succ m ih =>
    rw [descend] at h
    cases hk : k (m + 1) with
    | some r' =>
      rw [hk] at h
      refine ⟨m + 1, by omega, by omega, ?_⟩
      rw [hk]
      exact h
    | none =>
      rw [hk] at h
      obtain ⟨n, h1, h2, h3⟩ := ih h
      exact ⟨n, h1, by omega, h3⟩

/-- A successful match (with the trivial continuation) returns one capture per
capture group of the pattern. -/
theorem matchSeq_length :
    ∀ (ps : List RE) (s : List Char) (caps : List (List Char)),
      matchSeq ps s (fun _ => some []) = some caps → caps.length = grpCount ps
  | [], s, caps, h => by
    cases Option.some.inj h
    rfl
  | .lit c :: ps, [], caps, h => Option.noConfusion h
  | .lit c :: ps, a :: rest, caps, h => by
    by_cases hac : a = c
    · rw [matchSeq, if_pos hac] at h
      exact matchSeq_length ps rest caps h
    · rw [matchSeq, if_neg hac] at h
      cases h
  | .dotPlus :: ps, s, caps, h => by
    rw [matchSeq] at h
    obtain ⟨n, _, _, h3⟩ := descend_some h
    exact matchSeq_length ps (s.drop n) caps h3
  | .grpPlus :: ps, s, caps, h => by
    rw [matchSeq] at h
    obtain ⟨n, _, _, h3⟩ := descend_some h
    cases hm : matchSeq ps (s.drop n) (fun _ => some []) with
    | none => rw [hm] at h3; cases h3
    | some caps' =>
      rw [hm] at h3
      cases Option.some.inj h3
      simp only [List.length_cons, grpCount]
      rw [matchSeq_length ps (s.drop n) caps' hm]

/-- `reFind` returns one capture per capture group of the pattern. -/
theorem reFind_length (ps : List RE) :
    ∀ (s : List Char) (caps : List (List Char)),
      reFind ps s = some caps → caps.length = grpCount ps
  | [], caps, h => matchSeq_length ps [] caps h
  | a :: rest, caps, h => by
    rw [reFind] at h
    cases hm : matchSeq ps (a :: rest) (fun _ => some []) with
    | some caps' =>
      rw [hm] at h
      have h2 := matchSeq_length ps (a :: rest) caps' hm
      rwa [Option.some.inj h] at h2
    | none =>
      rw [hm] at h
      exact reFind_length ps rest caps h

/-- Every character of every capture of a successful match occurs in the
matched string. -/
theorem matchSeq_chars :
    ∀ (ps : List RE) (s : List Char) (caps : List (List Char)),
      matchSeq ps s (fun _ => some []) = some caps →
        ∀ cap ∈ caps, ∀ c ∈ cap, c ∈ s
  | [], s, caps, h => by
    cases Option.some.inj h
    simp
  | .lit ch :: ps, [], caps, h => Option.noConfusion h
  | .lit ch :: ps, a :: rest, caps, h => by
    by_cases hac : a = ch
    · rw [matchSeq, if_pos hac] at h
      exact fun cap hcap c hc =>
        List.mem_cons_of_mem a (matchSeq_chars ps rest caps h cap hcap c hc)
    · rw [matchSeq, if_neg hac] at h
      cases h
  | .dotPlus :: ps, s, caps, h => by
    rw [matchSeq] at h
    obtain ⟨n, _, _, h3⟩ := descend_some h
    exact fun cap hcap c hc =>
      List.drop_subset n s (matchSeq_chars ps (s.drop n) caps h3 cap hcap c hc)
  | .grpPlus :: ps, s, caps, h => by
    rw [matchSeq] at h
    obtain ⟨n, _, _, h3⟩ := descend_some h
    cases hm : matchSeq ps (s.drop n) (fun _ => some []) with
    | none => rw [hm] at h3; cases h3
    | some caps' =>
      rw [hm] at h3
      cases Option.some.inj h3
      intro cap hcap c hc
      cases List.mem_cons.1 hcap with
      | inl htake =>
        exact List.take_subset n s (htake ▸ hc)
      | inr hmem =>
        exact List.drop_subset n s
          (matchSeq_chars ps (s.drop n) caps' hm cap hmem c hc)

/-- Every character of every capture found by `reFind` occurs in the searched
string. -/
theorem reFind_chars (ps : List RE) :
    ∀ (s : List Char) (caps : List (List Char)),
      reFind ps s = some caps → ∀ cap ∈ caps, ∀ c ∈ cap, c ∈ s
  | [], caps, h => matchSeq_chars ps [] caps h
  | a :: rest, caps, h => by
    rw [reFind] at h
    cases hm : matchSeq ps (a :: rest) (fun _ => some []) with
    | some caps' =>
      rw [hm] at h
      have h2 := matchSeq_chars ps (a :: rest) caps' hm
      rwa [Option.some.inj h] at h2
    | none =>
      rw [hm] at h
      exact fun cap hcap c hc =>
        List.mem_cons_of_mem a (reFind_chars ps rest caps h cap hcap c hc)

/-- Characters of `caps.getD i []` occur in the searched string whenever all
capture characters do. -/
theorem getD_chars {caps : List (List Char)} {l : List Char}
    (hchars : ∀ cap ∈ caps, ∀ c ∈ cap, c ∈ l) (i : Nat) :
    ∀ c ∈ caps.getD i [], c ∈ l := by
  by_cases hi : i < caps.length
  · rw [List.getD_eq_getElem caps [] hi]
    exact hchars _ (List.getElem_mem hi)
  · rw [List.getD_eq_default caps [] (by omega)]
    simp

/-! ### Inversion lemmas for the four form parsers -/

/-- A successful Web-form parse comes from a `"(.+)"` match. -/
theorem parse_web_ok {l : List Char} {k : PathKind}
    (h : parse_base_web_form l = Except.ok k) :
    ∃ caps, reFind patQuoted l = some caps ∧
      k = PathKind.Web (String.mk (caps.getD 0 [])) := by
  unfold parse_base_web_form at h
  cases hf : reFind patQuoted l with
  | none => rw [hf] at h; cases h
  | some caps =>
    rw [hf] at h
    exact ⟨caps, rfl, (Except.ok.inj h).symm⟩

/-- A successful File-form parse comes from a `"(.+)"` match. -/
theorem parse_file_ok {l : List Char} {k : PathKind}
    (h : parse_base_file_form l = Except.ok k) :
    ∃ caps, reFind patQuoted l = some caps ∧
      k = PathKind.File (String.mk (caps.getD 0 [])) := by
  unfold parse_base_file_form at h
  cases hf : reFind patQuoted l with
  | none => rw [hf] at h; cases h
  | some caps =>
    rw [hf] at h
    exact ⟨caps, rfl, (Except.ok.inj h).symm⟩

/-- A successful Server/Ref-form parse comes from a `"(.+)".+"(.+)"` match. -/
theorem parse_server_ok {l : List Char} {k : PathKind}
    (h : parse_base_server_form l = Except.ok k) :
    ∃ caps, reFind patServer l = some caps ∧
      k = PathKind.Server (String.mk (caps.getD 0 []))
        (String.mk (caps.getD 1 [])) := by
  unfold parse_base_server_form at h
  cases hf : reFind patServer l with
  | none => rw [hf] at h; cases h
  | some caps =>
    rw [hf] at h
    exact ⟨caps, rfl, (Except.ok.inj h).symm⟩

/-- A successful Simple-form parse comes from a `(.+);(.+)` match. -/
theorem parse_simple_ok {l : List Char} {k : PathKind}
    (h : parse_base_simple_form l = Except.ok k) :
    ∃ caps, reFind patSimple l = some caps ∧
      k = PathKind.Server (String.mk (caps.getD 0 []))
        (String.mk (caps.getD 1 [])) := by
  unfold parse_base_simple_form at h
  cases hf : reFind patSimple l with
  | none => rw [hf] at h; cases h
  | some caps =>
    rw [hf] at h
    exact ⟨caps, rfl, (Except.ok.inj h).symm⟩

/-! ### Claim C9 -/

/-- C9: classification is total and panic-free in the model: every input
string yields a descriptor or an error value, and each of the three regexes,
whenever it matches, yields exactly the capture groups the code indexes
(`captures[1]`, and `captures[2]` for the two-group patterns), so the
indexing is always guarded by a successful match.  (The `Regex::new` unwraps
correspond to the fixed pattern values `patQuoted`, `patServer`,
`patSimple`.) -/
theorem parse_base_path_total (s : String) :
    ((∃ host ref_name,
        parse_base_path s = Except.ok (PathKind.Server host ref_name)) ∨
      (∃ p, parse_base_path s = Except.ok (PathKind.File p)) ∨
      (∃ u, parse_base_path s = Except.ok (PathKind.Web u)) ∨
      (∃ msg, parse_base_path s = Except.error msg)) ∧
    (∀ t caps, reFind patQuoted t = some caps → ∃ c1, caps = [c1]) ∧
    (∀ t caps, reFind patServer t = some caps → ∃ c1 c2, caps = [c1, c2]) ∧
    (∀ t caps, reFind patSimple t = some caps → ∃ c1 c2, caps = [c1, c2]) := by
  refine ⟨?_, ?_, ?_, ?_⟩
  · cases hr : parse_base_path s with
    | error msg => exact Or.inr (Or.inr (Or.inr ⟨msg, rfl⟩))
    | ok k =>
      cases k with
      | Server host ref_name => exact Or.inl ⟨host, ref_name, rfl⟩
      | File p => exact Or.inr (Or.inl ⟨p, rfl⟩)
      | Web u => exact Or.inr (Or.inr (Or.inl ⟨u, rfl⟩))
  · intro t caps hc
    have hlen := reFind_length patQuoted t caps hc
    rw [show grpCount patQuoted = 1 from rfl] at hlen
    cases caps with
    | nil => simp at hlen
    | cons c1 rest =>
      cases rest with
      | nil => exact ⟨c1, rfl⟩
      | cons c2 rest2 => simp at hlen
  · intro t caps hc
    have hlen := reFind_length patServer t caps hc
    rw [show grpCount patServer = 2 from rfl] at hlen
    cases caps with
    | nil => simp at hlen
    | cons c1 rest =>
      cases rest with
      | nil => simp at hlen
      | cons c2 rest2 =>
        cases rest2 with
        | nil => exact ⟨c1, c2, rfl⟩
        | cons c3 rest3 => simp at hlen
  · intro t caps hc
    have hlen := reFind_length patSimple t caps hc
    rw [show grpCount patSimple = 2 from rfl] at hlen
    cases caps with
    | nil => simp at hlen
    | cons c1 rest =>
      cases rest with
      | nil => simp at hlen
      | cons c2 rest2 =>
        cases rest2 with
        | nil => exact ⟨c1, c2, rfl⟩
        | cons c3 rest3 => simp at hlen

/-- Witness for C9 at a concrete input. -/
theorem parse_base_path_total_witness :
    ∃ c1 c2, [['h'], ['r']] = [c1, c2] :=
  (parse_base_path_total "x").2.2.1 "\"h\";\"r\"".data [['h'], ['r']] rfl

/-! ### Claim C1 -/

/-- Text captured out of the lower-cased input is fixed by lower-casing. -/
theorem lowered_fix {s : String} {cap : List Char}
    (hsub : ∀ c ∈ cap, c ∈ loweredInput s) :
    cap.map Char.toLower = cap :=
  map_fix (fun c hc => by
    obtain ⟨a, _, rfl⟩ := List.mem_map.1 (hsub c hc)
    exact toLower_toLower a)

/-- In the non-Web branches, every field of a successful parse is made of
characters of the lower-cased input. -/
theorem parse_nonweb_chars {s : String}
    (hws : rustContains (trimmedInput s) wsMarker = false) :
    ∀ {k : PathKind}, parse_base_path s = Except.ok k →
      (∀ host ref_name, k = PathKind.Server host ref_name →
        (∀ c ∈ host.data, c ∈ loweredInput s) ∧
        (∀ c ∈ ref_name.data, c ∈ loweredInput s)) ∧
      (∀ p, k = PathKind.File p → ∀ c ∈ p.data, c ∈ loweredInput s) := by
  intro k hk
  unfold trimmedInput at hws
  simp only [parse_base_path, hws, Bool.false_eq_true, if_false] at hk
  rw [show List.map Char.toLower (rustTrim s.data) = loweredInput s from rfl] at hk
  cases hfile : rustContains (loweredInput s) fileMarker with
  | true =>
    rw [hfile, if_pos rfl] at hk
    obtain ⟨caps, hre, hkk⟩ := parse_file_ok hk
    subst hkk
    refine ⟨fun host ref_name heq => PathKind.noConfusion heq, ?_⟩
    intro p heq
    injection heq with h1
    subst h1
    intro c hc
    exact getD_chars (reFind_chars patQuoted (loweredInput s) caps hre) 0 c hc
  | false =>
    rw [hfile, if_neg Bool.false_ne_true] at hk
    cases hsr : (rustContains (loweredInput s) srvrMarker &&
        rustContains (loweredInput s) refMarker) with
    | true =>
      rw [hsr, if_pos rfl] at hk
      obtain ⟨caps, hre, hkk⟩ := parse_server_ok hk
      subst hkk
      refine ⟨?_, fun p heq => PathKind.noConfusion heq⟩
      intro host ref_name heq
      injection heq with h1 h2
      subst h1
      subst h2
      exact ⟨fun c hc =>
          getD_chars (reFind_chars patServer (loweredInput s) caps hre) 0 c hc,
        fun c hc =>
          getD_chars (reFind_chars patServer (loweredInput s) caps hre) 1 c hc⟩
    | false =>
      rw [hsr, if_neg Bool.false_ne_true] at hk
      cases hsemi : rustContains (loweredInput s) [';'] with
      | true =>
        rw [hsemi, if_pos rfl] at hk
        obtain ⟨caps, hre, hkk⟩ := parse_simple_ok hk
        subst hkk
        refine ⟨?_, fun p heq => PathKind.noConfusion heq⟩
        intro host ref_name heq
        injection heq with h1 h2
        subst h1
        subst h2
        exact ⟨fun c hc =>
            getD_chars (reFind_chars patSimple (loweredInput s) caps hre) 0 c hc,
          fun c hc =>
            getD_chars (reFind_chars patSimple (loweredInput s) caps hre) 1 c hc⟩
      | false =>
        rw [hsemi, if_neg Bool.false_ne_true] at hk
        cases hk

/-- C1: `parse_base_path` proceeds in the fixed order of the specification:
it trims, then — if the trimmed string contains exact-case `ws=` — hands the
trimmed (not lower-cased) string to the Web form only; otherwise it
lower-cases the string and hands it to the File form if it contains `file=`,
else to the Server/Ref form if it contains both `srvr=` and `ref=`, else to
the Simple form if it contains `;`, else fails with an error carrying the
original raw text.  First match wins: a string matching an earlier marker is
never handled by a later form.  All field values extracted after the
lower-casing step are lower-cased (fixed by `Char.toLower`). -/
theorem parse_base_path_order (s : String) :
    (rustContains (trimmedInput s) wsMarker = true →
      parse_base_path s = parse_base_web_form (trimmedInput s)) ∧
    (rustContains (trimmedInput s) wsMarker = false →
      (rustContains (loweredInput s) fileMarker = true →
        parse_base_path s = parse_base_file_form (loweredInput s)) ∧
      (rustContains (loweredInput s) fileMarker = false →
        (rustContains (loweredInput s) srvrMarker &&
          rustContains (loweredInput s) refMarker) = true →
        parse_base_path s = parse_base_server_form (loweredInput s)) ∧
      (rustContains (loweredInput s) fileMarker = false →
        (rustContains (loweredInput s) srvrMarker &&
          rustContains (loweredInput s) refMarker) = false →
        rustContains (loweredInput s) [';'] = true →
        parse_base_path s = parse_base_simple_form (loweredInput s)) ∧
      (rustContains (loweredInput s) fileMarker = false →
        (rustContains (loweredInput s) srvrMarker &&
          rustContains (loweredInput s) refMarker) = false →
        rustContains (loweredInput s) [';'] = false →
        parse_base_path s =
          Except.error ("Could not parse provided path: " ++ s)) ∧
      (∀ host ref_name,
        parse_base_path s = Except.ok (PathKind.Server host ref_name) →
          host.data.map Char.toLower = host.data ∧
          ref_name.data.map Char.toLower = ref_name.data) ∧
      (∀ p, parse_base_path s = Except.ok (PathKind.File p) →
        p.data.map Char.toLower = p.data)) := by
  constructor
  · intro hws
    unfold trimmedInput at hws ⊢
    simp only [parse_base_path, hws, if_true]
  · intro hws
    have hws' := hws
    unfold trimmedInput at hws'
    refine ⟨?_, ?_, ?_, ?_, ?_, ?_⟩
    · intro hfile
      unfold loweredInput at hfile ⊢
      simp only [parse_base_path, hws', Bool.false_eq_true, if_false, hfile,
        if_true]
    · intro hfile hsr
      unfold loweredInput at hfile hsr ⊢
      simp only [parse_base_path, hws', Bool.false_eq_true, if_false, hfile,
        hsr, if_true]
    · intro hfile hsr hsemi
      unfold loweredInput at hfile hsr hsemi ⊢
      simp only [parse_base_path, hws', Bool.false_eq_true, if_false, hfile,
        hsr, hsemi, if_true]
    · intro hfile hsr hsemi
      unfold loweredInput at hfile hsr hsemi
      simp only [parse_base_path, hws', Bool.false_eq_true, if_false, hfile,
        hsr, hsemi]
    · intro host ref_name hk
      obtain ⟨hS, _⟩ := parse_nonweb_chars hws hk
      obtain ⟨h1, h2⟩ := hS host ref_name rfl
      exact ⟨lowered_fix h1, lowered_fix h2⟩
    · intro p hk
      obtain ⟨_, hF⟩ := parse_nonweb_chars hws hk
      exact lowered_fix (hF p rfl)

/-- Witness for C1 at a concrete input. -/
theorem parse_base_path_order_witness :
    parse_base_path "a;b" = parse_base_simple_form (loweredInput "a;b") :=
  ((parse_base_path_order "a;b").2 (by decide)).2.2.1 (by decide) (by decide)
    (by decide)

/-! ### Claim C7 -/

/-- The `writeln!` loop returns `Ok` iff every write succeeded. -/
theorem dump_writes_ok (writeOk : Nat → Bool) :
    ∀ (h : List String) (i : Nat),
      (dump_writes writeOk i h).1 = Except.ok () ↔
        ∀ j < h.length, writeOk (i + j) = true
  | [], i => by simp [dump_writes]
  | line :: rest, i => by
    cases hw : writeOk i with
    | true =>
      have hred : (dump_writes writeOk i (line :: rest)).1 =
          (dump_writes writeOk (i + 1) rest).1 := by
        rw [dump_writes, hw, if_pos rfl]
      rw [hred, dump_writes_ok writeOk rest (i + 1)]
      constructor
      · intro hall j hj
        cases j with
        | zero => simpa using hw
        | succ j' =>
          have h2 := hall j' (by simp at hj; omega)
          have : i + 1 + j' = i + (j' + 1) := by omega
          rwa [this] at h2
      · intro hall j hj
        have h2 := hall (j + 1) (by simp; omega)
        have : i + (j + 1) = i + 1 + j := by omega
        rwa [this] at h2
    | false =>
      have hred : (dump_writes writeOk i (line :: rest)).1 = Except.error () := by
        rw [dump_writes, hw, if_neg Bool.false_ne_true]
      rw [hred]
      constructor
      · intro hfalse
        cases hfalse
      · intro hall
        have h2 := hall 0 (by simp)
        rw [Nat.add_zero] at h2
        rw [hw] at h2
        cases h2

/-- C7 as stated is false: when `File::create` fails, `dump_history` silently
returns `Ok` although nothing was persisted — the `if let Ok(mut file)`
discards the creation error.  Concretely, persisting `["a"]` with a failing
create leaves the destination absent (not `some "a\n"`) yet reports
success. -/
theorem dump_history_swallows_create_error :
    dump_history ["a"] false (fun _ => true) none = (Except.ok (), none) ∧
      (dump_history ["a"] false (fun _ => true) none).2 ≠ some "a\n".data := by
  exact ⟨rfl, by decide⟩

/-- C7 (amended): once the destination file has been successfully created,
every write failure is surfaced to the caller — the call returns `Ok` iff
every line's `writeln!` succeeded; a failure of `File::create` itself,
however, is silently swallowed: the call returns `Ok` and leaves the old
file untouched. -/
theorem dump_history_surfaces_write_errors (h : List String)
    (writeOk : Nat → Bool) (oldFile : Option (List Char)) :
    ((dump_history h true writeOk oldFile).1 = Except.ok () ↔
      ∀ i < h.length, writeOk i = true) ∧
    dump_history h false writeOk oldFile = (Except.ok (), oldFile) := by
  constructor
  · have hred : (dump_history h true writeOk oldFile).1 =
        (dump_writes writeOk 0 h).1 := by
      rw [dump_history, if_pos rfl]
    rw [hred, dump_writes_ok writeOk h 0]
    constructor
    · intro hall i hi
      simpa using hall i hi
    · intro hall i hi
      simpa using hall i hi
  · rw [dump_history, if_neg Bool.false_ne_true]

/-- Witness for the amended C7 at a concrete input. -/
theorem dump_history_surfaces_write_errors_witness :
    (dump_history ["a"] true (fun _ => false) none).1 = Except.ok () ↔
      ∀ i < (["a"] : List String).length, (fun _ : Nat => false) i = true :=
  (dump_history_surfaces_write_errors ["a"] (fun _ => false) none).1

/-! ### Claim C5 -/

/-- Members of the updated history come from the old history or are the new
entry. -/
theorem add_to_history_subset {h : List String} {e x : String}
    (hx : x ∈ add_to_history h e) : x ∈ h ∨ x = e := by
  by_cases he : e ∈ h
  · obtain ⟨l, r, hdec, hnl⟩ := first_occurrence he
    subst hdec
    rw [add_to_history_of_split l r hnl] at hx
    rcases List.mem_cons.1 hx with h1 | h2
    · exact Or.inr h1
    · rcases List.mem_append.1 h2 with h3 | h4
      · exact Or.inl (List.mem_append.2 (Or.inl h3))
      · exact Or.inl (List.mem_append.2 (Or.inr (List.mem_cons_of_mem e h4)))
  · rw [add_to_history_of_not_mem he] at hx
    rcases List.mem_append.1 hx with h1 | h2
    · exact Or.inl h1
    · exact Or.inr (List.mem_singleton.1 h2)

/-- Splitting off one `\n`-terminated line inside `linesAux`. -/
theorem linesAux_split {x : List Char} (hnl : '\n' ∉ x) :
    ∀ (cur r : List Char),
      linesAux cur (x ++ '\n' :: r) =
        stripCr (cur.reverse ++ x) :: linesAux [] r := by
  induction x with
  | nil =>
    intro cur r
    rw [List.nil_append, linesAux, if_pos rfl, List.append_nil]
  | cons c x' ih =>
    intro cur r
    have hc : c ≠ '\n' := fun hh => hnl (by simp [hh])
    rw [List.cons_append, linesAux, if_neg hc,
      ih (fun hh => hnl (List.mem_cons_of_mem c hh)) (c :: cur) r]
    rw [List.reverse_cons, List.append_assoc, List.singleton_append]

/-- A line with no `\n` and no trailing `\r` survives `BufRead::lines`. -/
theorem stripCr_of_no_cr {x : List Char} (hcr : x.getLast? ≠ some '\r') :
    stripCr x = x := by
  rw [stripCr, if_neg hcr]

/-- Dumped lines are recovered exactly by `rustLines` when no entry contains
`\n` or ends with `\r`. -/
theorem lines_roundtrip :
    ∀ (h : List String),
      (∀ x ∈ h, '\n' ∉ x.data ∧ x.data.getLast? ≠ some '\r') →
      ∀ i, rustLines (dump_writes (fun _ => true) i h).2 = h.map String.data
  | [], _, i => rfl
  | x :: rest, hok, i => by
    have hx := hok x (by simp)
    have hrest : ∀ y ∈ rest, '\n' ∉ y.data ∧ y.data.getLast? ≠ some '\r' :=
      fun y hy => hok y (List.mem_cons_of_mem x hy)
    have hred : (dump_writes (fun _ => true) i (x :: rest)).2 =
        (x.data ++ ['\n']) ++ (dump_writes (fun _ => true) (i + 1) rest).2 := by
      rw [dump_writes, if_pos rfl]
    rw [hred]
    unfold rustLines
    rw [List.append_assoc, List.singleton_append, linesAux_split hx.1]
    rw [List.reverse_nil, List.nil_append, stripCr_of_no_cr hx.2]
    rw [show linesAux [] (dump_writes (fun _ => true) (i + 1) rest).2 =
        rustLines (dump_writes (fun _ => true) (i + 1) rest).2 from rfl]
    rw [lines_roundtrip rest hrest (i + 1), List.map_cons]

/-- C5 as stated is false: the entry `"a\r"` contains no newline character
(`'\n'`), yet `record_use` → `persist` → `load` does not reproduce it:
`writeln!` stores it as `a\r\n` and `BufRead::lines` strips the `\r\n`,
yielding `"a"`. -/
theorem round_trip_counterexample :
    add_to_history [] "a\r" = ["a\r"] ∧
      (∀ e ∈ add_to_history [] "a\r", '\n' ∉ e.data) ∧
      load_history []
          ((dump_history (add_to_history [] "a\r") true (fun _ => true)
            none).2) = ["a"] ∧
      (["a"] : List String) ≠ ["a\r"] := by
  exact ⟨rfl, by decide, rfl, by decide⟩

/-- C5 (amended): `record_use` followed by `persist` (with every write
succeeding) followed by `load` into an empty in-memory history reproduces the
post-`record_use` sequence exactly, provided every history string and the new
entry contain no newline `'\n'` and do not end with a carriage return
`'\r'`. -/
theorem round_trip (h : List String) (e : String)
    (hh : ∀ x ∈ h, '\n' ∉ x.data ∧ x.data.getLast? ≠ some '\r')
    (he : '\n' ∉ e.data ∧ e.data.getLast? ≠ some '\r') :
    load_history []
        ((dump_history (add_to_history h e) true (fun _ => true) none).2) =
      add_to_history h e := by
  have hok : ∀ x ∈ add_to_history h e,
      '\n' ∉ x.data ∧ x.data.getLast? ≠ some '\r' := by
    intro x hx
    rcases add_to_history_subset hx with hmem | rfl
    · exact hh x hmem
    · exact he
  have hred : (dump_history (add_to_history h e) true (fun _ => true) none).2 =
      some (dump_writes (fun _ => true) 0 (add_to_history h e)).2 := by
    rw [dump_history, if_pos rfl]
  rw [hred, load_history]
  rw [lines_roundtrip (add_to_history h e) hok 0]
  rw [List.nil_append, List.map_map]
  have hid : (String.mk ∘ String.data) = id := funext (fun x => rfl)
  rw [hid, List.map_id]

/-- Witness for the amended C5 at a concrete input. -/
theorem round_trip_witness :
    load_history []
        ((dump_history (add_to_history ["x"] "y") true (fun _ => true)
          none).2) = add_to_history ["x"] "y" :=
  round_trip ["x"] "y" (by decide) (by decide)

/-! ### Claim C2 -/

/-- A literal step of the matcher on its own character. -/
theorem matchSeq_lit_cons (c : Char) (ps : List RE) (t : List Char)
    (k : List Char → Option (List (List Char))) :
    matchSeq (RE.lit c :: ps) (c :: t) k = matchSeq ps t k := by
  rw [matchSeq, if_pos rfl]

/-- A literal step fails when the head character differs. -/
theorem matchSeq_lit_none_head {c a : Char} {t : List Char} (ps : List RE)
    (k : List Char → Option (List (List Char))) (ha : a ≠ c) :
    matchSeq (RE.lit c :: ps) (a :: t) k = none := by
  rw [matchSeq, if_neg ha]

/-- A literal step fails on any string all of whose characters differ. -/
theorem matchSeq_lit_none {c : Char} {t : List Char} (ps : List RE)
    (k : List Char → Option (List (List Char))) (ht : ∀ a ∈ t, a ≠ c) :
    matchSeq (RE.lit c :: ps) t k = none := by
  cases t with
  | nil => rfl
  | cons a rest => rw [matchSeq, if_neg (ht a (by simp))]

/-- `takeWhile` passes over a block that wholly satisfies the predicate. -/
theorem takeWhile_append_all {p : Char → Bool} :
    ∀ {x r : List Char}, (∀ c ∈ x, p c = true) →
      (x ++ r).takeWhile p = x ++ r.takeWhile p
  | [], r, _ => rfl
  | c :: x, r, hall => by
    rw [List.cons_append, List.takeWhile_cons, hall c (by simp), if_pos rfl,
      takeWhile_append_all (fun d hd => hall d (List.mem_cons_of_mem c hd))]
    rfl

/-- `descend` returns the value of the largest viable length: if everything
above `j` fails and `j` succeeds, the greedy scan stops at `j`. -/
theorem descend_eq {r : List (List Char)} (f : Nat → Option (List (List Char))) :
    ∀ (m j : Nat), 1 ≤ j → j ≤ m → (∀ n, j < n → n ≤ m → f n = none) →
      f j = some r → descend m f = some r
  | 0, j, h1, h2, _, _ => by omega
  | m + 1, j, h1, h2, hfail, hf => by
    rw [descend]
    by_cases hjm : j = m + 1
    · subst hjm
      rw [hf]
    · rw [hfail (m + 1) (by omega) (le_refl _)]
      exact descend_eq f m j h1 (by omega) (fun n hn hm => hfail n hn (by omega)) hf

/-- `reFind` skips positions whose head cannot start a match of a
literal-headed pattern. -/
theorem reFind_skip {c : Char} (ps : List RE) :
    ∀ (pre l : List Char), (∀ a ∈ pre, a ≠ c) →
      reFind (RE.lit c :: ps) (pre ++ l) = reFind (RE.lit c :: ps) l
  | [], l, _ => rfl
  | a :: pre, l, hpre => by
    rw [List.cons_append, reFind, matchSeq_lit_none_head ps _ (hpre a (by simp))]
    exact reFind_skip ps pre l (fun x hx => hpre x (List.mem_cons_of_mem a hx))

/-- The Web/File regex `"(.+)"` on a string whose only quote structure is an
opening quote, a nonempty newline-free body `x`, a closing quote and a
quote-free tail: the greedy capture is exactly `x`. -/
theorem matchSeq_patQuoted (x post : List Char) (hx : x ≠ [])
    (hnl : '\n' ∉ x) (hpost : '"' ∉ post) :
    matchSeq patQuoted ('"' :: (x ++ '"' :: post)) (fun _ => some []) =
      some [x] := by
  have hstep : matchSeq patQuoted ('"' :: (x ++ '"' :: post))
      (fun _ => some []) =
      matchSeq [RE.grpPlus, RE.lit '"'] (x ++ '"' :: post)
        (fun _ => some []) := by
    rw [show patQuoted = RE.lit '"' :: [RE.grpPlus, RE.lit '"'] from rfl,
      matchSeq_lit_cons]
  rw [hstep, matchSeq]
  have hqnl : (('"' : Char) == '\n') = false := by decide
  have htw : (x ++ '"' :: post).takeWhile (fun c => !(c == '\n')) =
      x ++ '"' :: post.takeWhile (fun c => !(c == '\n')) := by
    rw [takeWhile_append_all (fun c hc => by
        have hcc : (c == '\n') = false :=
          beq_eq_false_iff_ne.mpr (fun hh => hnl (by rw [← hh]; exact hc))
        rw [hcc]
        rfl),
      List.takeWhile_cons, hqnl]
    rfl
  rw [htw]
  refine descend_eq _ _ x.length (List.length_pos.2 hx) ?_ ?_ ?_
  · rw [List.length_append, List.length_cons]
    omega
  · intro n hgt hle
    obtain ⟨d, rfl⟩ : ∃ d, n = x.length + (d + 1) :=
      ⟨n - x.length - 1, by omega⟩
    rw [List.drop_append, List.drop_succ_cons]
    rw [matchSeq_lit_none [] _ (fun a ha heq =>
      hpost (by rw [← heq]; exact List.drop_subset d post ha))]
    rfl
  · rw [List.drop_left, List.take_left, matchSeq_lit_cons]
    rfl

/-- Leftmost search for `"(.+)"` on a string with a quote-free part before
the opening quote. -/
theorem reFind_patQuoted_unique (pre x post : List Char)
    (hpre : '"' ∉ pre) (hpost : '"' ∉ post) (hx : x ≠ []) (hnl : '\n' ∉ x) :
    reFind patQuoted (pre ++ '"' :: (x ++ '"' :: post)) = some [x] := by
  have hskip : reFind patQuoted (pre ++ '"' :: (x ++ '"' :: post)) =
      reFind patQuoted ('"' :: (x ++ '"' :: post)) := by
    rw [show patQuoted = RE.lit '"' :: [RE.grpPlus, RE.lit '"'] from rfl]
    exact reFind_skip _ pre _ (fun a ha heq =>
      hpre (by rw [← heq]; exact ha))
  rw [hskip, reFind, matchSeq_patQuoted x post hx hnl hpost]

/-- C2 as stated is false: the input `"a";ws="b"` contains the exact-case
substring `ws="b"`, but classification returns the greedy capture between the
FIRST and LAST double quote of the whole string — `a";ws="b` — not `b`. -/
theorem web_form_counterexample :
    rustContains (rustTrim "\"a\";ws=\"b\"".data) "ws=\"b\"".data = true ∧
      parse_base_path "\"a\";ws=\"b\"" ≠ Except.ok (PathKind.Web "b") ∧
      parse_base_path "\"a\";ws=\"b\"" =
        Except.ok (PathKind.Web "a\";ws=\"b") := by
  exact ⟨rfl, by decide, rfl⟩

/-- C2 (amended): for every string whose trimmed form contains the exact-case
marker `ws=` and whose double quotes delimit exactly one segment — trimmed
form `pre ++ '"' :: X ++ '"' :: post` with `pre` and `post` quote-free and
`X` nonempty and newline-free — classification returns `Web{url: X}` with
`X` preserved in its original casing. -/
theorem web_form_spec (s : String) (pre x post : List Char)
    (hdec : rustTrim s.data = pre ++ '"' :: (x ++ '"' :: post))
    (hpre : '"' ∉ pre) (hpost : '"' ∉ post) (hx : x ≠ []) (hnl : '\n' ∉ x)
    (hws : rustContains (rustTrim s.data) wsMarker = true) :
    parse_base_path s = Except.ok (PathKind.Web (String.mk x)) := by
  have h1 : parse_base_path s = parse_base_web_form (rustTrim s.data) := by
    simp only [parse_base_path, hws, if_true]
  rw [h1, hdec]
  unfold parse_base_web_form
  rw [reFind_patQuoted_unique pre x post hpre hpost hx hnl]
  rfl

/-- Witness for the amended C2 at a concrete input (casing preserved). -/
theorem web_form_spec_witness :
    parse_base_path "ws=\"Url\"" = Except.ok (PathKind.Web "Url") :=
  web_form_spec "ws=\"Url\"" ['w', 's', '='] ['U', 'r', 'l'] []
    (by decide) (by decide) (by decide) (by decide) (by decide) (by decide)
